import Mathlib

/-!
# Verification of the testbank-backend bidirectional replication engine

Shallow embedding of the MongoDB ⇄ Firestore sync engine
(`src/config/firebase.js` / `src/sync/mongoToFirestore.js` and
`src/sync/firestoreToMongo.js`), together with proofs about the
normalizer, the backfill passes, the two live replicator handlers and
the sync orchestrator.

JavaScript values are embedded as the inductive type `Value`; JS objects
are association lists from field name to `Value` (`Doc`), and each store
is an association list from document key to document (`Store`).
-/

set_option maxHeartbeats 1000000

namespace Testbank

/-- A JavaScript runtime value as the sync engine manipulates it:
primitives, MongoDB `ObjectId` references (held as their 24-hex string),
`Date` values (held as an integer timestamp), arrays, and plain objects
(ordered field lists, as JS objects preserve insertion order). -/
inductive Value where
  | vNull : Value
  | vBool : Bool → Value
  | vNum : Int → Value
  | vStr : String → Value
  | vOid : String → Value
  | vDate : Int → Value
  | vArr : List Value → Value
  | vObj : List (String × Value) → Value

/-- A document: an ordered list of fields of a JS object. -/
abbrev Doc := List (String × Value)

/-- A store (a MongoDB collection or a Firestore collection): keys mapped
to documents. -/
abbrev Store := List (String × Doc)

section AList

variable {α : Type}

/-- First-match lookup in an association list (JS property access / store
point lookup by key). -/
def alGet (l : List (String × α)) (k : String) : Option α :=
  match l with
  | [] => none
  | (k', v) :: tl => if k' = k then some v else alGet tl k

/-- Set a key: replaces the first occurrence in place (JS assignment and
spread-override preserve the original property position), appending when
the key is absent. -/
def alSet (l : List (String × α)) (k : String) (v : α) : List (String × α) :=
  match l with
  | [] => [(k, v)]
  | (k', v') :: tl => if k' = k then (k, v) :: tl else (k', v') :: alSet tl k v

/-- Delete a key (JS `delete obj.k`, destructuring-rest omission, or a
store delete). -/
def alDel (l : List (String × α)) (k : String) : List (String × α) :=
  match l with
  | [] => []
  | (k', v') :: tl => if k' = k then tl else (k', v') :: alDel tl k

/-- The keys of an association list. -/
def alKeys (l : List (String × α)) : List String := l.map Prod.fst

end AList

mutual
/-- `cleanObject` from `cleanDocument` in `src/sync/mongoToFirestore.js`:
recursively converts every `ObjectId` to its string, keeps `Date` values,
maps arrays and objects element-wise, and returns primitives unchanged
(the JS source checks, in order: falsy/non-object, `ObjectId`, `Array`,
`Date`, then iterates the object's entries). -/
def cleanObject : Value → Value
  | Value.vNull => Value.vNull
  | Value.vBool b => Value.vBool b
  | Value.vNum n => Value.vNum n
  | Value.vStr s => Value.vStr s
  | Value.vOid s => Value.vStr s
  | Value.vDate t => Value.vDate t
  | Value.vArr xs => Value.vArr (cleanObjectList xs)
  | Value.vObj fs => Value.vObj (cleanObjectFields fs)

/-- Element-wise `cleanObject` over an array (`obj.map(cleanObject)`). -/
def cleanObjectList : List Value → List Value
  | [] => []
  | v :: vs => cleanObject v :: cleanObjectList vs

/-- Entry-wise `cleanObject` over an object's fields
(`for (const [key, value] of Object.entries(obj))`). -/
def cleanObjectFields : List (String × Value) → List (String × Value)
  | [] => []
  | (k, v) :: ps => (k, cleanObject v) :: cleanObjectFields ps
end

/-- `.toString()` as used on `_id` values (a Mongo `ObjectId` renders as
its hex string). -/
def oidString : Value → String
  | Value.vOid s => s
  | Value.vStr s => s
  | _ => ""

/-- Spread `{ ...base, ...more }`: fields of `more` override fields of
`base` in place, new fields are appended, as JS object spread does. -/
def spreadInto (base more : Doc) : Doc :=
  more.foldl (fun acc p => alSet acc p.1 p.2) base

/-- `cleanDocument` from `src/sync/mongoToFirestore.js`: destructures
`__v` and `_id` out of the record, builds `{ id: _id.toString(), ...rest }`
and recursively cleans the result (the top-level call lands in
`cleanObject`'s plain-object branch, hence the entry-wise map).
`cleanDocument(null)` and `cleanDocument(undefined)` return `{}`. -/
def cleanDocument : Option Doc → Doc
  | none => []
  | some doc =>
    let rest := alDel (alDel doc "__v") "_id"
    let cleaned := spreadInto [("id", Value.vStr (oidString ((alGet doc "_id").getD Value.vNull)))] rest
    cleanObjectFields cleaned

/-- The `_syncedFrom` provenance check `rawData._syncedFrom === "tag"`:
JS strict equality against a string literal holds only for an identical
string value. -/
def tagIs (d : Doc) (s : String) : Bool :=
  match alGet d "_syncedFrom" with
  | some (Value.vStr t) => t == s
  | _ => false

/-- `fullDocument?._syncedFrom === "tag"` — optional-chaining variant of
`tagIs`; a missing document yields `undefined`, which is not `=== "tag"`. -/
def optTagIs (d : Option Doc) (s : String) : Bool :=
  match d with
  | some doc => tagIs doc s
  | none => false

/-- The primary key grammar `/^[0-9a-fA-F]{24}$/` used by
`isValidObjectId` in `src/sync/firestoreToMongo.js`. -/
def isHexChar (c : Char) : Bool :=
  (('0' ≤ c && c ≤ '9') || ('a' ≤ c && c ≤ 'f') || ('A' ≤ c && c ≤ 'F'))

/-- `isValidObjectId` from `src/sync/firestoreToMongo.js`: a 24-character
hexadecimal token. -/
def isValidObjectId (s : String) : Bool :=
  s.length == 24 && s.toList.all isHexChar

/-- Attach the provenance tag, as in `{ ...doc, _syncedFrom: "mongo" }`
or `{ ...doc, _syncedFrom: "firestore" }`: the trailing literal overrides
any `_syncedFrom` field of the spread document. -/
def withTag (d : Doc) (s : String) : Doc :=
  alSet d "_syncedFrom" (Value.vStr s)

mutual
/-- The inner `cleanObject` of `cleanFirestoreDoc` in
`src/sync/firestoreToMongo.js`: primitives pass through, arrays map
element-wise, and objects are rebuilt entry-wise, keeping string-valued
`_id` and `createdBy` fields as-is (and recursing otherwise). `Date` and
`ObjectId` values fall into the generic object branch, whose
`Object.entries` is empty for them. -/
def cleanFsValue : Value → Value
  | Value.vNull => Value.vNull
  | Value.vBool b => Value.vBool b
  | Value.vNum n => Value.vNum n
  | Value.vStr s => Value.vStr s
  | Value.vOid _ => Value.vObj []
  | Value.vDate _ => Value.vObj []
  | Value.vArr xs => Value.vArr (cleanFsList xs)
  | Value.vObj fs => Value.vObj (cleanFsFields fs)

/-- Element-wise `cleanFsValue` over an array. -/
def cleanFsList : List Value → List Value
  | [] => []
  | v :: vs => cleanFsValue v :: cleanFsList vs

/-- Entry-wise loop of `cleanFirestoreDoc`'s `cleanObject`, with the
literal special cases for string-valued `_id` and `createdBy`. -/
def cleanFsFields : List (String × Value) → List (String × Value)
  | [] => []
  | (k, v) :: ps =>
    (k,
      if k == "_id" then
        match v with
        | Value.vStr s => Value.vStr s
        | w => cleanFsValue w
      else if k == "createdBy" then
        match v with
        | Value.vStr s => Value.vStr s
        | w => cleanFsValue w
      else cleanFsValue v) :: cleanFsFields ps
end

/-- `cleanFirestoreDoc` from `src/sync/firestoreToMongo.js` applied to a
document's data: `delete data.id` followed by the recursive clean (the
top-level call lands in the plain-object branch). -/
def cleanFirestoreDoc (data : Doc) : Doc :=
  cleanFsFields (alDel data "id")

/-! ## Store collaborators

The two stores are external collaborators (spec §6): the primary store
exposes point lookup, create, field-update ($set) and delete by key; the
secondary store exposes document get/set/delete by key. They are modelled
as finite maps (`Store`). -/

/-- `model.create(fields)`: the new record's key is the string `_id`
field when the payload carries one, otherwise the freshly minted key
`freshId`; creating a key that already exists is a duplicate-key error,
which the callers catch and log, leaving the store unchanged. The stored
record holds its key as an `ObjectId` under `_id`. -/
def mongoCreate (M : Store) (fields : Doc) (freshId : String) : Store :=
  let key := match alGet fields "_id" with
    | some (Value.vStr s) => s
    | _ => freshId
  match alGet M key with
  | some _ => M
  | none => alSet M key (alSet fields "_id" (Value.vOid key))

/-- The `$set` applied by `Model.findByIdAndUpdate(key, fields)`: each
given top-level field overrides the record's, exactly the spread
override. -/
def mergeFields (r : Doc) (fields : Doc) : Doc :=
  spreadInto r fields

/-- Point update by key: merge `fields` into the record at `key` when it
exists, else no-op (`findByIdAndUpdate` without `upsert`). -/
def mongoUpdate (M : Store) (key : String) (fields : Doc) : Store :=
  match alGet M key with
  | some r => alSet M key (mergeFields r fields)
  | none => M

/-! ## Live Replicator, primary → secondary
(`syncModelToFirestore` in `src/sync/mongoToFirestore.js`) -/

/-- `operationType` of a MongoDB change-stream event. -/
inductive MongoOp where
  | insert : MongoOp
  | update : MongoOp
  | replace : MongoOp
  | delete : MongoOp

/-- A MongoDB change-stream event as the listener reads it:
`documentKey._id.toString()` and the optional `fullDocument` (absent on
`delete` events, and on `update` events when the stream was opened
without `fullDocument: "updateLookup"`, as `model.watch()` is here). -/
structure MongoChange where
  op : MongoOp
  key : String
  fullDocument : Option Doc

/-- One `change` callback of `syncModelToFirestore`: given the current
Mongo collection `M` (read by the `findById` re-fetch), the Firestore
collection `F`, and the event, returns the new Firestore collection.
Mirrors lines 84–118 of `src/sync/mongoToFirestore.js`: the
`fullDocument?._syncedFrom === "firestore"` loop guard, then the
`insert` / `update`,`replace` (with origin re-read and second tag check)
/ `delete` switch. -/
def syncModelToFirestoreStep (M F : Store) (c : MongoChange) : Store :=
  if optTagIs c.fullDocument "firestore" then F
  else
    match c.op with
    | MongoOp.insert => alSet F c.key (withTag (cleanDocument c.fullDocument) "mongo")
    | MongoOp.update | MongoOp.replace =>
      let updatedDoc := alGet M c.key
      if optTagIs updatedDoc "firestore" then F
      else alSet F c.key (withTag (cleanDocument updatedDoc) "mongo")
    | MongoOp.delete => alDel F c.key

/-- `d._id.toString()`, the Firestore key a scanned Mongo record maps
to during backfill. -/
def mongoScanKey (d : Doc) : String :=
  oidString ((alGet d "_id").getD Value.vNull)

/-- One record of the Mongo → Firestore backfill (lines 67–78 of
`src/sync/mongoToFirestore.js`): look up `d._id.toString()` in
Firestore; only when absent, write the cleaned record tagged `"mongo"`. -/
def initialSyncStep (F : Store) (d : Doc) : Store :=
  match alGet F (mongoScanKey d) with
  | some _ => F
  | none => alSet F (mongoScanKey d) (withTag (cleanDocument (some d)) "mongo")

/-- The full Mongo → Firestore backfill pass over the origin scan
`allDocs`. -/
def initialMongoToFirestore (allDocs : List Doc) (F : Store) : Store :=
  allDocs.foldl initialSyncStep F

/-! ## Live Replicator, secondary → primary
(`syncFirestoreToMongo` in `src/sync/firestoreToMongo.js`) -/

/-- `change.type` of a Firestore snapshot-diff event. -/
inductive FsOp where
  | added : FsOp
  | modified : FsOp
  | removed : FsOp

/-- A Firestore `docChanges()` entry: the change type, `doc.id`, and
`doc.data()` (for `removed` events, the document's data as of the last
snapshot in which it existed). -/
structure FsChange where
  op : FsOp
  docId : String
  docData : Doc

/-- One `docChanges` callback of `syncFirestoreToMongo` (lines 82–141 of
`src/sync/firestoreToMongo.js`): the `rawData._syncedFrom === "mongo"`
guard, then `cleanFirestoreDoc`, the `isValidObjectId` test, and the
`added` / `modified` / `removed` switch. `freshId` is the key the
primary store would mint for a `create` without `_id` (spec §4.5:
minting is delegated to the store's key generation). -/
def syncFirestoreToMongoStep (M : Store) (c : FsChange) (freshId : String) : Store :=
  if tagIs c.docData "mongo" then M
  else
    let data := cleanFirestoreDoc c.docData
    let valid := isValidObjectId c.docId
    match c.op with
    | FsOp.added =>
      match alGet M c.docId with
      | some _ => M
      | none =>
        if valid then
          mongoCreate M (withTag (spreadInto [("_id", Value.vStr c.docId)] data) "firestore") freshId
        else
          mongoCreate M (withTag data "firestore") freshId
    | FsOp.modified =>
      if valid then mongoUpdate M c.docId (withTag data "firestore")
      else M
    | FsOp.removed =>
      if valid then alDel M c.docId
      else M

/-- One document of the Firestore → Mongo backfill (lines 45–79 of
`src/sync/firestoreToMongo.js`): skip documents tagged `"mongo"`; for
the rest, `findById`, then create (directly under the document key when
it matches the grammar, else under a minted key) when absent, and
`findByIdAndUpdate` when present. Each snapshot document is paired with
the key the store would mint if a fresh one is needed. -/
def initialFsStep (M : Store) (p : (String × Doc) × String) : Store :=
  let docId := p.1.1
  let rawData := p.1.2
  let freshId := p.2
  if tagIs rawData "mongo" then M
  else
    let data := cleanFirestoreDoc rawData
    let valid := isValidObjectId docId
    match alGet M docId with
    | none =>
      if valid then
        mongoCreate M (withTag (spreadInto [("_id", Value.vStr docId)] data) "firestore") freshId
      else
        mongoCreate M (withTag data "firestore") freshId
    | some _ => mongoUpdate M docId (withTag data "firestore")

/-- The full Firestore → Mongo backfill pass over the initial snapshot. -/
def initialFirestoreToMongo (snapshot : List ((String × Doc) × String)) (M : Store) : Store :=
  snapshot.foldl initialFsStep M

/-! ## Sync Orchestrator
(`startMongoToFirestoreSync` / `startFirestoreToMongoSync`, and their
invocation in `src/server.js`) -/

/-- Starting one direction's sync for the configured collection list:
the source awaits `syncModelToFirestore` (resp. `syncFirestoreToMongo`)
for each binding sequentially inside a single `try`; the first binding
whose startup throws (`failing` it) aborts the loop through the shared
`catch`, which only logs. Returns the bindings whose sync actually
started (backfill completed and listener attached). -/
def startSyncSeq (failing : String → Bool) : List String → List String
  | [] => []
  | b :: rest => if failing b then [] else b :: startSyncSeq failing rest

/-- The bindings configured in the source, in start order. -/
def syncBindings : List String := ["students", "tests", "studentTestAttempts"]

/-- `src/server.js` awaits `startMongoToFirestoreSync()` then
`startFirestoreToMongoSync()`; each catches its own errors, so both
directions always run their start sequence. Returns the started bindings
of each direction. -/
def startBothDirections (failMF failFM : String → Bool) (bs : List String) :
    List String × List String :=
  (startSyncSeq failMF bs, startSyncSeq failFM bs)

/-! ## Association-list lemmas -/

section AListLemmas

variable {α : Type}

@[simp] theorem alKeys_nil : alKeys ([] : List (String × α)) = [] := rfl

@[simp] theorem alKeys_cons (k : String) (v : α) (tl : List (String × α)) :
    alKeys ((k, v) :: tl) = k :: alKeys tl := rfl

theorem alGet_alSet_self (l : List (String × α)) (k : String) (v : α) :
    alGet (alSet l k v) k = some v := by
  induction l with
  | nil => simp [alSet, alGet]
  | cons p tl ih =>
    obtain ⟨k', v'⟩ := p
    by_cases h : k' = k <;> simp [alSet, alGet, h, ih]

theorem alGet_alSet_ne (l : List (String × α)) (k k' : String) (v : α) (h : k ≠ k') :
    alGet (alSet l k v) k' = alGet l k' := by
  induction l with
  | nil => simp [alSet, alGet, h, Ne.symm h]
  | cons p tl ih =>
    obtain ⟨k0, v0⟩ := p
    by_cases h0 : k0 = k
    · subst h0; simp [alSet, alGet, h, Ne.symm h, ih]
    · by_cases h1 : k0 = k' <;> simp [alSet, alGet, h0, h1, h, Ne.symm h, ih]

theorem alSet_self (l : List (String × α)) (k : String) (v : α)
    (h : alGet l k = some v) : alSet l k v = l := by
  induction l with
  | nil => simp [alGet] at h
  | cons p tl ih =>
    obtain ⟨k0, v0⟩ := p
    by_cases h0 : k0 = k
    · subst h0
      simp [alGet] at h
      simp [alSet, h]
    · simp [alGet, h0] at h
      simp [alSet, h0, ih h]

theorem alGet_alDel_ne (l : List (String × α)) (k k' : String) (h : k ≠ k') :
    alGet (alDel l k) k' = alGet l k' := by
  induction l with
  | nil => simp [alDel]
  | cons p tl ih =>
    obtain ⟨k0, v0⟩ := p
    by_cases h0 : k0 = k
    · subst h0; simp [alDel, alGet, h, Ne.symm h, ih]
    · by_cases h1 : k0 = k' <;> simp [alDel, alGet, h0, h1, h, Ne.symm h, ih]

theorem alGet_eq_none_iff (l : List (String × α)) (k : String) :
    alGet l k = none ↔ k ∉ alKeys l := by
  induction l with
  | nil => simp [alGet]
  | cons p tl ih =>
    obtain ⟨k0, v0⟩ := p
    by_cases h0 : k0 = k <;> simp [alGet, h0, ih, Ne.symm]

theorem alGet_isSome_of_mem (l : List (String × α)) (k : String)
    (h : k ∈ alKeys l) : ∃ v, alGet l k = some v := by
  rcases he : alGet l k with _ | v
  · exact absurd ((alGet_eq_none_iff l k).1 he) (by simp [h])
  · exact ⟨v, rfl⟩

theorem alGet_alDel_self (l : List (String × α)) (k : String)
    (h : (alKeys l).Nodup) : alGet (alDel l k) k = none := by
  induction l with
  | nil => simp [alDel, alGet]
  | cons p tl ih =>
    obtain ⟨k0, v0⟩ := p
    rw [alKeys_cons, List.nodup_cons] at h
    by_cases h0 : k0 = k
    · subst h0
      rw [alDel, if_pos rfl]
      exact (alGet_eq_none_iff tl k0).2 h.1
    · simp [alDel, alGet, h0, ih h.2]

theorem alKeys_alDel_sublist (l : List (String × α)) (k : String) :
    (alKeys (alDel l k)).Sublist (alKeys l) := by
  induction l with
  | nil => simp [alDel]
  | cons p tl ih =>
    obtain ⟨k0, v0⟩ := p
    by_cases h0 : k0 = k
    · rw [alDel, if_pos h0]
      exact List.sublist_cons_self k0 (alKeys tl)
    · rw [alDel, if_neg h0]
      exact ih.cons₂ k0

theorem alKeys_alDel_nodup (l : List (String × α)) (k : String)
    (h : (alKeys l).Nodup) : (alKeys (alDel l k)).Nodup :=
  (alKeys_alDel_sublist l k).nodup h

theorem mem_alKeys_alSet (l : List (String × α)) (k k' : String) (v : α) :
    k' ∈ alKeys (alSet l k v) ↔ k' = k ∨ k' ∈ alKeys l := by
  induction l with
  | nil => simp [alSet]
  | cons p tl ih =>
    obtain ⟨k0, v0⟩ := p
    by_cases h0 : k0 = k
    · subst h0
      simp [alSet]
    · simp [alSet, h0, ih]
      tauto

theorem alKeys_alSet_nodup (l : List (String × α)) (k : String) (v : α)
    (h : (alKeys l).Nodup) : (alKeys (alSet l k v)).Nodup := by
  induction l with
  | nil => simp [alSet]
  | cons p tl ih =>
    obtain ⟨k0, v0⟩ := p
    rw [alKeys_cons, List.nodup_cons] at h
    by_cases h0 : k0 = k
    · subst h0
      rw [alSet, if_pos rfl, alKeys_cons, List.nodup_cons]
      exact h
    · rw [alSet, if_neg h0, alKeys_cons, List.nodup_cons]
      refine ⟨fun hm => ?_, ih h.2⟩
      rcases (mem_alKeys_alSet tl k k0 v).1 hm with h1 | h1
      · exact h0 h1
      · exact h.1 h1

end AListLemmas

/-! ## Spread / `$set` merge lemmas -/

theorem spreadInto_cons (base : Doc) (k : String) (v : Value) (tl : Doc) :
    spreadInto base ((k, v) :: tl) = spreadInto (alSet base k v) tl := rfl

theorem alGet_spreadInto_of_none (base more : Doc) (k : String)
    (h : alGet more k = none) : alGet (spreadInto base more) k = alGet base k := by
  induction more generalizing base with
  | nil => rfl
  | cons p tl ih =>
    obtain ⟨k0, v0⟩ := p
    by_cases h0 : k0 = k
    · simp [alGet, h0] at h
    · simp [alGet, h0] at h
      rw [spreadInto_cons, ih _ h, alGet_alSet_ne _ _ _ _ h0]

theorem alGet_spreadInto_of_some (base more : Doc) (k : String) (v : Value)
    (hn : (alKeys more).Nodup) (h : alGet more k = some v) :
    alGet (spreadInto base more) k = some v := by
  induction more generalizing base with
  | nil => simp [alGet] at h
  | cons p tl ih =>
    obtain ⟨k0, v0⟩ := p
    rw [alKeys_cons, List.nodup_cons] at hn
    by_cases h0 : k0 = k
    · subst h0
      simp [alGet] at h
      subst h
      have htl : alGet tl k0 = none := (alGet_eq_none_iff tl k0).2 hn.1
      rw [spreadInto_cons, alGet_spreadInto_of_none _ _ _ htl, alGet_alSet_self]
    · simp [alGet, h0] at h
      rw [spreadInto_cons]
      exact ih _ hn.2 h

theorem spreadInto_noop (r ps : Doc) (hn : (alKeys ps).Nodup)
    (h : ∀ k v, alGet ps k = some v → alGet r k = some v) : spreadInto r ps = r := by
  induction ps generalizing r with
  | nil => rfl
  | cons p tl ih =>
    obtain ⟨k0, v0⟩ := p
    rw [alKeys_cons, List.nodup_cons] at hn
    have hr : alGet r k0 = some v0 := h k0 v0 (by simp [alGet])
    rw [spreadInto_cons, alSet_self _ _ _ hr]
    refine ih _ hn.2 fun k v hk => h k v ?_
    have hkk0 : k ≠ k0 := by
      intro he
      subst he
      exact hn.1 (by simpa using (alGet_eq_none_iff tl k).not_left.1 (by simp [hk]))
    simp [alGet, Ne.symm hkk0]
    exact hk

theorem mergeFields_absorb (r ps : Doc) (hn : (alKeys ps).Nodup)
    (h : ∀ k v, alGet ps k = some v → alGet r k = some v) : mergeFields r ps = r :=
  spreadInto_noop r ps hn h

theorem mergeFields_idem (r ps : Doc) (hn : (alKeys ps).Nodup) :
    mergeFields (mergeFields r ps) ps = mergeFields r ps :=
  mergeFields_absorb _ ps hn fun k v hk => alGet_spreadInto_of_some r ps k v hn hk

/-! ## Normalizer facts -/

mutual
/-- No `ObjectId` occurs anywhere in the value. -/
def noOid : Value → Bool
  | Value.vOid _ => false
  | Value.vArr xs => noOidList xs
  | Value.vObj fs => noOidFields fs
  | _ => true

/-- `noOid` over every element of an array. -/
def noOidList : List Value → Bool
  | [] => true
  | v :: vs => noOid v && noOidList vs

/-- `noOid` over every field value of an object. -/
def noOidFields : List (String × Value) → Bool
  | [] => true
  | (_, v) :: ps => noOid v && noOidFields ps
end

mutual
theorem cleanObject_noOid : (v : Value) → noOid (cleanObject v) = true
  | Value.vNull => rfl
  | Value.vBool _ => rfl
  | Value.vNum _ => rfl
  | Value.vStr _ => rfl
  | Value.vOid _ => rfl
  | Value.vDate _ => rfl
  | Value.vArr xs => by
    rw [cleanObject]
    exact cleanObjectList_noOid xs
  | Value.vObj fs => by
    rw [cleanObject]
    exact cleanObjectFields_noOid fs

theorem cleanObjectList_noOid : (xs : List Value) → noOid (Value.vArr (cleanObjectList xs)) = true
  | [] => rfl
  | v :: vs => by
    rw [cleanObjectList]
    show noOidList _ = true
    rw [noOidList]
    simp [cleanObject_noOid v]
    show noOidList (cleanObjectList vs) = true
    have := cleanObjectList_noOid vs
    rwa [noOid] at this

theorem cleanObjectFields_noOid : (fs : List (String × Value)) →
    noOid (Value.vObj (cleanObjectFields fs)) = true
  | [] => rfl
  | (k, v) :: ps => by
    rw [cleanObjectFields]
    show noOidFields _ = true
    rw [noOidFields]
    simp [cleanObject_noOid v]
    show noOidFields (cleanObjectFields ps) = true
    have := cleanObjectFields_noOid ps
    rwa [noOid] at this
end

theorem alGet_cleanObjectFields (ps : List (String × Value)) (k : String) :
    alGet (cleanObjectFields ps) k = (alGet ps k).map cleanObject := by
  induction ps with
  | nil => rfl
  | cons p tl ih =>
    obtain ⟨k0, v0⟩ := p
    by_cases h0 : k0 = k <;> simp [cleanObjectFields, alGet, h0, ih]

theorem cleanObjectList_eq_map (xs : List Value) :
    cleanObjectList xs = xs.map cleanObject := by
  induction xs with
  | nil => rfl
  | cons v vs ih => rw [cleanObjectList, List.map_cons, ih]

theorem cleanObjectFields_eq_map (ps : List (String × Value)) :
    cleanObjectFields ps = ps.map (fun p => (p.1, cleanObject p.2)) := by
  induction ps with
  | nil => rfl
  | cons p tl ih =>
    obtain ⟨k0, v0⟩ := p
    rw [cleanObjectFields, List.map_cons, ih]

/-! ## Claim C6 -/

/-- C6: for every `modified` or `removed` event from the secondary store
whose key does not match the 24-character hexadecimal primary key
grammar, the secondary-to-primary replicator performs no primary-store
mutation. -/
theorem c6_invalid_key_modified_removed_noop (M : Store) (c : FsChange) (freshId : String)
    (hv : isValidObjectId c.docId = false)
    (hop : c.op = FsOp.modified ∨ c.op = FsOp.removed) :
    syncFirestoreToMongoStep M c freshId = M := by
  rcases hop with h | h <;>
    by_cases ht : tagIs c.docData "mongo" <;>
      simp [syncFirestoreToMongoStep, h, ht, hv]

/-- Witness for C6: a `modified` event for key `"teacher-fall-2024"`
leaves the Mongo store untouched. -/
theorem c6_invalid_key_modified_removed_noop_witness :
    isValidObjectId "teacher-fall-2024" = false ∧
    syncFirestoreToMongoStep [("k", [])]
      ⟨FsOp.modified, "teacher-fall-2024", [("x", Value.vNum 1)]⟩ "d" = [("k", [])] :=
  ⟨by decide,
   c6_invalid_key_modified_removed_noop [("k", [])]
     ⟨FsOp.modified, "teacher-fall-2024", [("x", Value.vNum 1)]⟩ "d" (by decide) (Or.inl rfl)⟩

/-! ## Claim C10 -/

/-- C10: in the secondary-to-primary direction a live `added` event is
create-if-absent — when the mapped key already has a primary record, the
replicator performs no write and the primary store is unchanged. -/
theorem c10_added_create_if_absent (M : Store) (c : FsChange) (freshId : String) (r : Doc)
    (hop : c.op = FsOp.added)
    (hex : alGet M c.docId = some r) :
    syncFirestoreToMongoStep M c freshId = M := by
  by_cases ht : tagIs c.docData "mongo" <;>
    simp [syncFirestoreToMongoStep, hop, ht, hex]

/-- Witness for C10: an `added` event whose key already exists performs
no write. -/
theorem c10_added_create_if_absent_witness :
    alGet [("aaaaaaaaaaaaaaaaaaaaaaaa", [("x", Value.vNum 9)])] "aaaaaaaaaaaaaaaaaaaaaaaa"
      = some [("x", Value.vNum 9)] ∧
    syncFirestoreToMongoStep [("aaaaaaaaaaaaaaaaaaaaaaaa", [("x", Value.vNum 9)])]
      ⟨FsOp.added, "aaaaaaaaaaaaaaaaaaaaaaaa", [("x", Value.vNum 1)]⟩ "d"
      = [("aaaaaaaaaaaaaaaaaaaaaaaa", [("x", Value.vNum 9)])] :=
  ⟨rfl,
   c10_added_create_if_absent [("aaaaaaaaaaaaaaaaaaaaaaaa", [("x", Value.vNum 9)])]
     ⟨FsOp.added, "aaaaaaaaaaaaaaaaaaaaaaaa", [("x", Value.vNum 1)]⟩ "d"
     [("x", Value.vNum 9)] rfl rfl⟩

/-! ## Claim C5 -/

/-- C5: an `added` event for a secondary document whose key does not
match the primary key grammar and which has no existing primary record
creates a new primary record under the freshly minted grammar-compliant
key `freshId`, and the non-matching secondary key is not used as the
primary key. (`freshId` is assumed fresh and grammar-compliant, the
minting contract of the primary store; the payload carries no literal
top-level `_id` field and is not tagged `"mongo"`.) -/
theorem c5_key_format_fallback (M : Store) (c : FsChange) (freshId : String)
    (hop : c.op = FsOp.added)
    (hv : isValidObjectId c.docId = false)
    (habs : alGet M c.docId = none)
    (htag : tagIs c.docData "mongo" = false)
    (hid : alGet (cleanFirestoreDoc c.docData) "_id" = none)
    (hfresh : alGet M freshId = none)
    (hfv : isValidObjectId freshId = true) :
    syncFirestoreToMongoStep M c freshId
      = alSet M freshId
          (alSet (withTag (cleanFirestoreDoc c.docData) "firestore") "_id" (Value.vOid freshId))
    ∧ alGet (syncFirestoreToMongoStep M c freshId) c.docId = none := by
  have hne : freshId ≠ c.docId := by
    intro he
    rw [he, hv] at hfv
    exact Bool.false_ne_true hfv
  have hfid : alGet (withTag (cleanFirestoreDoc c.docData) "firestore") "_id" = none := by
    rw [withTag, alGet_alSet_ne _ _ _ _ (by decide)]
    exact hid
  have hstep : syncFirestoreToMongoStep M c freshId
      = alSet M freshId
          (alSet (withTag (cleanFirestoreDoc c.docData) "firestore") "_id" (Value.vOid freshId)) := by
    simp [syncFirestoreToMongoStep, hop, htag, hv, habs, mongoCreate, hfid, hfresh]
  refine ⟨hstep, ?_⟩
  rw [hstep, alGet_alSet_ne _ _ _ _ hne]
  exact habs

/-- Witness for C5, with the spec's example key `"teacher-fall-2024"`. -/
theorem c5_key_format_fallback_witness :
    isValidObjectId "teacher-fall-2024" = false ∧
    (syncFirestoreToMongoStep [] ⟨FsOp.added, "teacher-fall-2024", [("y", Value.vNum 2)]⟩
        "dddddddddddddddddddddddd"
      = alSet [] "dddddddddddddddddddddddd"
          (alSet (withTag (cleanFirestoreDoc [("y", Value.vNum 2)]) "firestore") "_id"
            (Value.vOid "dddddddddddddddddddddddd"))
     ∧ alGet (syncFirestoreToMongoStep [] ⟨FsOp.added, "teacher-fall-2024", [("y", Value.vNum 2)]⟩
        "dddddddddddddddddddddddd") "teacher-fall-2024" = none) :=
  ⟨by decide,
   c5_key_format_fallback [] ⟨FsOp.added, "teacher-fall-2024", [("y", Value.vNum 2)]⟩
     "dddddddddddddddddddddddd" rfl (by decide) rfl rfl rfl rfl (by decide)⟩

/-! ## Claim C9 -/

/-- C9: the primary→secondary normalizer strips `_id` and `__v` from the
record, carries the canonical `id` field holding the string form of the
record's `_id`, replaces every nested `ObjectId` anywhere by its string
form, keeps `Date` values unchanged, maps arrays and objects
element-wise, and passes every other value through unchanged. (The
record is a well-formed JS object — distinct keys — whose `_id` is an
`ObjectId` and which carries no literal `id` field, as primary-store
records never do: `id` is only a non-persisted mongoose virtual.) -/
theorem c9_normalizer_shape (doc : Doc) (h : String)
    (hid : alGet doc "_id" = some (Value.vOid h))
    (hnoid : alGet doc "id" = none)
    (hn : (alKeys doc).Nodup) :
    alGet (cleanDocument (some doc)) "_id" = none ∧
    alGet (cleanDocument (some doc)) "__v" = none ∧
    alGet (cleanDocument (some doc)) "id" = some (Value.vStr h) ∧
    (∀ v, noOid (cleanObject v) = true) ∧
    (∀ s, cleanObject (Value.vOid s) = Value.vStr s) ∧
    (∀ t, cleanObject (Value.vDate t) = Value.vDate t) ∧
    (∀ xs, cleanObject (Value.vArr xs) = Value.vArr (xs.map cleanObject)) ∧
    (∀ fs, cleanObject (Value.vObj fs) = Value.vObj (fs.map (fun p => (p.1, cleanObject p.2)))) ∧
    (∀ b, cleanObject (Value.vBool b) = Value.vBool b) ∧
    (∀ n, cleanObject (Value.vNum n) = Value.vNum n) ∧
    (∀ s, cleanObject (Value.vStr s) = Value.vStr s) ∧
    cleanObject Value.vNull = Value.vNull := by
  have hrest : ∀ k, k ≠ "_id" → k ≠ "__v" →
      alGet (alDel (alDel doc "__v") "_id") k = alGet doc k := by
    intro k h1 h2
    rw [alGet_alDel_ne _ _ _ (Ne.symm h1), alGet_alDel_ne _ _ _ (Ne.symm h2)]
  have hrest_id : alGet (alDel (alDel doc "__v") "_id") "_id" = none :=
    alGet_alDel_self _ _ (alKeys_alDel_nodup _ _ hn)
  have hrest_v : alGet (alDel (alDel doc "__v") "_id") "__v" = none := by
    rw [alGet_alDel_ne _ _ _ (by decide)]
    exact alGet_alDel_self _ _ hn
  have hrest_noid : alGet (alDel (alDel doc "__v") "_id") "id" = none := by
    rw [hrest "id" (by decide) (by decide)]
    exact hnoid
  have hdoc : cleanDocument (some doc)
      = cleanObjectFields
          (spreadInto [("id", Value.vStr (oidString ((alGet doc "_id").getD Value.vNull)))]
            (alDel (alDel doc "__v") "_id")) := rfl
  refine ⟨?_, ?_, ?_, cleanObject_noOid, fun _ => rfl, fun _ => rfl,
    fun xs => by rw [cleanObject, cleanObjectList_eq_map],
    fun fs => by rw [cleanObject, cleanObjectFields_eq_map],
    fun _ => rfl, fun _ => rfl, fun _ => rfl, rfl⟩
  · rw [hdoc, alGet_cleanObjectFields, alGet_spreadInto_of_none _ _ _ hrest_id]
    rfl
  · rw [hdoc, alGet_cleanObjectFields, alGet_spreadInto_of_none _ _ _ hrest_v]
    rfl
  · rw [hdoc, alGet_cleanObjectFields, alGet_spreadInto_of_none _ _ _ hrest_noid, hid]
    rfl

/-- A concrete primary-store record with nested `ObjectId`s, a `Date`,
an array and a sub-object, used to exercise the normalizer. -/
def sampleMongoRecord : Doc :=
  [("_id", Value.vOid "aaaaaaaaaaaaaaaaaaaaaaaa"), ("__v", Value.vNum 0),
   ("ref", Value.vOid "bbbbbbbbbbbbbbbbbbbbbbbb"), ("when", Value.vDate 5),
   ("tags", Value.vArr [Value.vOid "cccccccccccccccccccccccc"]),
   ("sub", Value.vObj [("inner", Value.vOid "eeeeeeeeeeeeeeeeeeeeeeee")])]

/-- Witness for C9 on `sampleMongoRecord`. -/
theorem c9_normalizer_shape_witness :
    alGet sampleMongoRecord "_id" = some (Value.vOid "aaaaaaaaaaaaaaaaaaaaaaaa") ∧
    alGet (cleanDocument (some sampleMongoRecord)) "_id" = none ∧
    alGet (cleanDocument (some sampleMongoRecord)) "id"
      = some (Value.vStr "aaaaaaaaaaaaaaaaaaaaaaaa") :=
  ⟨rfl,
   (c9_normalizer_shape sampleMongoRecord "aaaaaaaaaaaaaaaaaaaaaaaa" rfl rfl
     (by simp [sampleMongoRecord])).1,
   (c9_normalizer_shape sampleMongoRecord "aaaaaaaaaaaaaaaaaaaaaaaa" rfl rfl
     (by simp [sampleMongoRecord])).2.2.1⟩

/-! ## Claim C3 -/

/-- A primary-feed event whose record carries the primary store's own
tag (`_syncedFrom: "mongo"` read from the Mongo feed). -/
def mongoFeedEchoSelf : MongoChange :=
  ⟨MongoOp.insert, "aaaaaaaaaaaaaaaaaaaaaaaa",
   some [("_id", Value.vOid "aaaaaaaaaaaaaaaaaaaaaaaa"), ("_syncedFrom", Value.vStr "mongo")]⟩

/-- A secondary-feed event whose record carries the secondary store's own
tag (`_syncedFrom: "firestore"` read from the Firestore feed). -/
def fsFeedEchoSelf : FsChange :=
  ⟨FsOp.added, "aaaaaaaaaaaaaaaaaaaaaaaa",
   [("_syncedFrom", Value.vStr "firestore"), ("z", Value.vNum 7)]⟩

/-- C3 counterexample: an event read from store X whose record carries
tag = X is NOT discarded — in both directions the handler writes to the
(initially empty) opposite store. The code discards on the opposite
store's tag, not on the origin's. -/
theorem c3_counterexample :
    optTagIs mongoFeedEchoSelf.fullDocument "mongo" = true ∧
    syncModelToFirestoreStep [] [] mongoFeedEchoSelf ≠ [] ∧
    tagIs fsFeedEchoSelf.docData "firestore" = true ∧
    syncFirestoreToMongoStep [] fsFeedEchoSelf "bbbbbbbbbbbbbbbbbbbbbbbb" ≠ [] :=
  ⟨rfl, fun h => List.noConfusion h, rfl, fun h => List.noConfusion h⟩

/-- C3 amended: an event read from store X is discarded (with no write on
the opposite store) exactly on the opposite store's tag: the primary-feed
handler discards records tagged `"firestore"`, and the secondary-feed
handler discards records tagged `"mongo"`. -/
theorem c3_amended_opposite_tag_discard :
    (∀ (M F : Store) (c : MongoChange),
       optTagIs c.fullDocument "firestore" = true → syncModelToFirestoreStep M F c = F) ∧
    (∀ (M : Store) (c : FsChange) (freshId : String),
       tagIs c.docData "mongo" = true → syncFirestoreToMongoStep M c freshId = M) := by
  constructor
  · intro M F c h
    simp [syncModelToFirestoreStep, h]
  · intro M c freshId h
    simp [syncFirestoreToMongoStep, h]

/-- Witness for the amended C3: replicated echoes are dropped in both
directions. -/
theorem c3_amended_opposite_tag_discard_witness :
    optTagIs (some [("_syncedFrom", Value.vStr "firestore")]) "firestore" = true ∧
    syncModelToFirestoreStep [] [("f", [])]
      ⟨MongoOp.insert, "aaaaaaaaaaaaaaaaaaaaaaaa", some [("_syncedFrom", Value.vStr "firestore")]⟩
      = [("f", [])] ∧
    syncFirestoreToMongoStep [("m", [])]
      ⟨FsOp.added, "aaaaaaaaaaaaaaaaaaaaaaaa", [("_syncedFrom", Value.vStr "mongo")]⟩ "b"
      = [("m", [])] :=
  ⟨rfl,
   c3_amended_opposite_tag_discard.1 [] [("f", [])]
     ⟨MongoOp.insert, "aaaaaaaaaaaaaaaaaaaaaaaa", some [("_syncedFrom", Value.vStr "firestore")]⟩ rfl,
   c3_amended_opposite_tag_discard.2 [("m", [])]
     ⟨FsOp.added, "aaaaaaaaaaaaaaaaaaaaaaaa", [("_syncedFrom", Value.vStr "mongo")]⟩ "b" rfl⟩

/-! ## Claim C2 -/

/-- A secondary-feed `removed` event whose (pre-delete) document data was
tagged `"mongo"` — i.e. the deleted document had been written by the
primary→secondary replicator. -/
def fsRemovedTaggedMongo : FsChange :=
  ⟨FsOp.removed, "aaaaaaaaaaaaaaaaaaaaaaaa",
   [("_syncedFrom", Value.vStr "mongo"), ("x", Value.vNum 1)]⟩

/-- C2 counterexample: a `removed` event in the secondary feed for a
document tagged `"mongo"` does NOT delete the mapped primary record —
the `rawData._syncedFrom === "mongo"` guard runs before the `removed`
case, so the event is skipped and the record survives. -/
theorem c2_counterexample :
    isValidObjectId fsRemovedTaggedMongo.docId = true ∧
    syncFirestoreToMongoStep
      [("aaaaaaaaaaaaaaaaaaaaaaaa", [("x", Value.vNum 1)])] fsRemovedTaggedMongo "b"
      = [("aaaaaaaaaaaaaaaaaaaaaaaa", [("x", Value.vNum 1)])] ∧
    alGet (syncFirestoreToMongoStep
      [("aaaaaaaaaaaaaaaaaaaaaaaa", [("x", Value.vNum 1)])] fsRemovedTaggedMongo "b")
      "aaaaaaaaaaaaaaaaaaaaaaaa" = some [("x", Value.vNum 1)] :=
  ⟨by decide, rfl, rfl⟩

/-- C2 amended: a `delete` in the primary feed always propagates (the
feed supplies no document on deletes, so the tag guard cannot fire); a
`removed` in the secondary feed propagates only when the removed
document was not tagged `"mongo"` and its key matches the primary key
grammar — otherwise it is a no-op. -/
theorem c2_amended_delete_propagation :
    (∀ (M F : Store) (c : MongoChange),
       c.op = MongoOp.delete → c.fullDocument = none →
       syncModelToFirestoreStep M F c = alDel F c.key) ∧
    (∀ (M : Store) (c : FsChange) (freshId : String),
       c.op = FsOp.removed → tagIs c.docData "mongo" = false →
       isValidObjectId c.docId = true →
       syncFirestoreToMongoStep M c freshId = alDel M c.docId) ∧
    (∀ (M : Store) (c : FsChange) (freshId : String),
       c.op = FsOp.removed →
       (tagIs c.docData "mongo" = true ∨ isValidObjectId c.docId = false) →
       syncFirestoreToMongoStep M c freshId = M) := by
  refine ⟨?_, ?_, ?_⟩
  · intro M F c hop hdoc
    simp [syncModelToFirestoreStep, hop, hdoc, optTagIs]
  · intro M c freshId hop htag hv
    simp [syncFirestoreToMongoStep, hop, htag, hv]
  · intro M c freshId hop h
    rcases h with h | h
    · simp [syncFirestoreToMongoStep, h]
    · by_cases ht : tagIs c.docData "mongo" <;>
        simp [syncFirestoreToMongoStep, hop, ht, h]

/-- Witness for the amended C2: a primary delete reaches Firestore; an
untagged, grammar-valid secondary removal reaches Mongo. -/
theorem c2_amended_delete_propagation_witness :
    syncModelToFirestoreStep [] [("aaaaaaaaaaaaaaaaaaaaaaaa", [("x", Value.vNum 1)])]
      ⟨MongoOp.delete, "aaaaaaaaaaaaaaaaaaaaaaaa", none⟩
      = alDel [("aaaaaaaaaaaaaaaaaaaaaaaa", [("x", Value.vNum 1)])] "aaaaaaaaaaaaaaaaaaaaaaaa" ∧
    syncFirestoreToMongoStep [("aaaaaaaaaaaaaaaaaaaaaaaa", [("x", Value.vNum 1)])]
      ⟨FsOp.removed, "aaaaaaaaaaaaaaaaaaaaaaaa", [("x", Value.vNum 1)]⟩ "b"
      = alDel [("aaaaaaaaaaaaaaaaaaaaaaaa", [("x", Value.vNum 1)])] "aaaaaaaaaaaaaaaaaaaaaaaa" :=
  ⟨c2_amended_delete_propagation.1 [] [("aaaaaaaaaaaaaaaaaaaaaaaa", [("x", Value.vNum 1)])]
     ⟨MongoOp.delete, "aaaaaaaaaaaaaaaaaaaaaaaa", none⟩ rfl rfl,
   c2_amended_delete_propagation.2.1 [("aaaaaaaaaaaaaaaaaaaaaaaa", [("x", Value.vNum 1)])]
     ⟨FsOp.removed, "aaaaaaaaaaaaaaaaaaaaaaaa", [("x", Value.vNum 1)]⟩ "b" rfl rfl (by decide)⟩

/-! ## Claim C7 -/

/-- C7 counterexample: with only the `students` binding failing to start,
`startSyncSeq` starts nothing at all — in particular `tests` (which does
not fail) never starts, because the three bindings are awaited
sequentially inside one `try`/`catch`. -/
theorem c7_counterexample :
    (fun b => b == "students") "tests" = false ∧
    startSyncSeq (fun b => b == "students") syncBindings = [] ∧
    "tests" ∉ startSyncSeq (fun b => b == "students") syncBindings :=
  ⟨rfl, rfl, by decide⟩

/-- C7 amended: a binding whose sync fails to start aborts the start of
every binding listed after it in the same direction (bindings before it
are unaffected), while the other direction's start sequence is
independent of this direction's failures. -/
theorem c7_amended_sequential_abort :
    (∀ (failing : String → Bool) (pre : List String) (b : String) (post : List String),
       (∀ x ∈ pre, failing x = false) → failing b = true →
       startSyncSeq failing (pre ++ b :: post) = pre) ∧
    (∀ (failMF failMF2 failFM : String → Bool) (bs : List String),
       (startBothDirections failMF failFM bs).2 = (startBothDirections failMF2 failFM bs).2) := by
  constructor
  · intro failing pre b post hpre hb
    induction pre with
    | nil => simp [startSyncSeq, hb]
    | cons x tl ih =>
      have hx : failing x = false := hpre x (by simp)
      have ih2 := ih fun y hy => hpre y (by simp [hy])
      show (if failing x = true then [] else x :: startSyncSeq failing (tl ++ b :: post))
          = x :: tl
      rw [hx, ih2]
      simp
  · intro _ _ _ _
    rfl

/-- Witness for the amended C7: with `tests` failing, `students` (listed
before it) starts and `studentTestAttempts` (listed after it) does not. -/
theorem c7_amended_sequential_abort_witness :
    (fun b => b == "tests") "tests" = true ∧
    startSyncSeq (fun b => b == "tests") syncBindings = ["students"] :=
  ⟨rfl, by
    have h := c7_amended_sequential_abort.1 (fun b => b == "tests") ["students"] "tests"
      ["studentTestAttempts"] (by decide) rfl
    exact h⟩

/-! ## Claim C4 -/

theorem optTagIs_some (d : Doc) (s : String) : optTagIs (some d) s = tagIs d s := rfl

theorem optTagIs_none (s : String) : optTagIs none s = false := rfl

/-- Read one numeric field of one record of a store, defaulting to 0;
used to tell two concrete store states apart. -/
def probeNum (S : Store) (k f : String) : Int :=
  match alGet S k with
  | some d =>
    match alGet d f with
    | some (Value.vNum n) => n
    | _ => 0
  | none => 0

/-- The behavior claim C4 describes, written from the spec's words, for
the primary→secondary direction: on update/replace, re-fetch the current
record by key from the origin (primary) store; if it carries the
destination's tag, discard; otherwise normalize it and overwrite the
destination under the origin's tag. (Nothing to propagate when the
origin no longer has the record.) -/
def specUpdateReplicationPrimary (M F : Store) (c : MongoChange) : Store :=
  match alGet M c.key with
  | some cur =>
    if tagIs cur "firestore" then F
    else alSet F c.key (withTag (cleanDocument (some cur)) "mongo")
  | none => F

/-- The behavior claim C4 describes, written from the spec's words, for
the secondary→primary direction: on a modified event, re-fetch the
current document by key from the origin (secondary) store `Ffs`; if it
carries the destination's tag, discard; otherwise normalize it and
overwrite the destination under the origin's tag. -/
def specUpdateReplicationSecondary (Ffs M : Store) (c : FsChange) : Store :=
  match alGet Ffs c.docId with
  | some cur =>
    if tagIs cur "mongo" then M
    else alSet M c.docId (withTag (cleanFirestoreDoc cur) "firestore")
  | none => M

/-- The current secondary-store (origin) state in the C4 counterexample:
the live document at the key holds `x = 2`, while the event payload
still carries `x = 1`. -/
def c4FsOrigin : Store := [("aaaaaaaaaaaaaaaaaaaaaaaa", [("x", Value.vNum 2)])]

/-- The destination Mongo state in the C4 counterexample. -/
def c4MongoDest : Store :=
  [("aaaaaaaaaaaaaaaaaaaaaaaa", [("_id", Value.vOid "aaaaaaaaaaaaaaaaaaaaaaaa"), ("x", Value.vNum 0)])]

/-- The modified event of the C4 counterexample, carrying the stale
payload `x = 1`. -/
def c4ModifiedEvent : FsChange := ⟨FsOp.modified, "aaaaaaaaaaaaaaaaaaaaaaaa", [("x", Value.vNum 1)]⟩

/-- A replace event whose payload is tagged `"firestore"`, while the
re-fetched Mongo record is untagged. -/
def c4ReplaceEvent : MongoChange :=
  ⟨MongoOp.replace, "aaaaaaaaaaaaaaaaaaaaaaaa",
   some [("_id", Value.vOid "aaaaaaaaaaaaaaaaaaaaaaaa"), ("_syncedFrom", Value.vStr "firestore")]⟩

/-- The Mongo state for the replace-event half of the C4 counterexample:
the freshly fetched record carries no `"firestore"` tag, so the claim
requires an overwrite of the destination. -/
def c4MongoOrigin : Store :=
  [("aaaaaaaaaaaaaaaaaaaaaaaa", [("_id", Value.vOid "aaaaaaaaaaaaaaaaaaaaaaaa"), ("x", Value.vNum 5)])]

/-- C4 counterexample. Secondary→primary half: the handler writes the
event payload's value (`x = 1`), not the origin's current value
(`x = 2`) — there is no origin re-read, so its result differs from the
spec-described one. Primary→secondary half: a replace event whose
payload carries the `"firestore"` tag is discarded even though the
freshly fetched record carries no such tag, where the claim requires an
overwrite. -/
theorem c4_counterexample :
    alGet c4FsOrigin c4ModifiedEvent.docId = some [("x", Value.vNum 2)] ∧
    syncFirestoreToMongoStep c4MongoDest c4ModifiedEvent "b"
      ≠ specUpdateReplicationSecondary c4FsOrigin c4MongoDest c4ModifiedEvent ∧
    tagIs [("_id", Value.vOid "aaaaaaaaaaaaaaaaaaaaaaaa"), ("x", Value.vNum 5)] "firestore" = false ∧
    syncModelToFirestoreStep c4MongoOrigin [] c4ReplaceEvent = [] ∧
    specUpdateReplicationPrimary c4MongoOrigin [] c4ReplaceEvent ≠ [] :=
  ⟨rfl,
   fun h =>
     absurd (congrArg (fun S => probeNum S "aaaaaaaaaaaaaaaaaaaaaaaa" "x") h) (by decide),
   rfl, rfl, fun h => List.noConfusion h⟩

/-- C4 amended: in the primary→secondary direction, an update/replace
event whose payload is not itself tagged `"firestore"` is handled by
re-reading the record from the origin by key: if the fetched record
carries the destination's tag the event is discarded, otherwise the
normalized fetched record overwrites the destination under tag
`"mongo"`; when the re-read finds nothing, a tag-only stub is written;
payloads already tagged `"firestore"` are discarded without re-read. In
the secondary→primary direction there is no origin re-read: the modified
event's own delivered payload is normalized and `$set`-merged into the
existing destination record under tag `"firestore"` (the
destination-tag check applies to that payload), and a modified event
whose key has no destination record is a no-op. -/
theorem c4_amended_update_paths :
    (∀ (M F : Store) (c : MongoChange) (r : Doc),
       (c.op = MongoOp.update ∨ c.op = MongoOp.replace) →
       optTagIs c.fullDocument "firestore" = false →
       alGet M c.key = some r →
       syncModelToFirestoreStep M F c
         = if tagIs r "firestore" then F
           else alSet F c.key (withTag (cleanDocument (some r)) "mongo")) ∧
    (∀ (M F : Store) (c : MongoChange),
       (c.op = MongoOp.update ∨ c.op = MongoOp.replace) →
       optTagIs c.fullDocument "firestore" = false →
       alGet M c.key = none →
       syncModelToFirestoreStep M F c = alSet F c.key [("_syncedFrom", Value.vStr "mongo")]) ∧
    (∀ (M F : Store) (c : MongoChange),
       optTagIs c.fullDocument "firestore" = true →
       syncModelToFirestoreStep M F c = F) ∧
    (∀ (M : Store) (c : FsChange) (freshId : String) (r : Doc),
       c.op = FsOp.modified → tagIs c.docData "mongo" = false →
       isValidObjectId c.docId = true →
       alGet M c.docId = some r →
       syncFirestoreToMongoStep M c freshId
         = alSet M c.docId (mergeFields r (withTag (cleanFirestoreDoc c.docData) "firestore"))) ∧
    (∀ (M : Store) (c : FsChange) (freshId : String),
       c.op = FsOp.modified → tagIs c.docData "mongo" = false →
       isValidObjectId c.docId = true →
       alGet M c.docId = none →
       syncFirestoreToMongoStep M c freshId = M) := by
  refine ⟨?_, ?_, ?_, ?_, ?_⟩
  · intro M F c r hop htag hget
    rcases hop with h | h <;>
      by_cases ht : tagIs r "firestore" <;>
        simp [syncModelToFirestoreStep, h, htag, hget, ht, optTagIs_some]
  · intro M F c hop htag hget
    rcases hop with h | h <;>
      simp [syncModelToFirestoreStep, h, htag, hget, optTagIs_none,
        withTag, cleanDocument, alSet]
  · intro M F c htag
    simp [syncModelToFirestoreStep, htag]
  · intro M c freshId r hop htag hv hget
    simp [syncFirestoreToMongoStep, hop, htag, hv, hget, mongoUpdate]
  · intro M c freshId hop htag hv hget
    simp [syncFirestoreToMongoStep, hop, htag, hv, hget, mongoUpdate]

/-- Witness for the amended C4: a primary update event re-reads the
untagged origin record and overwrites Firestore; a secondary modified
event merges its payload into the existing Mongo record. -/
theorem c4_amended_update_paths_witness :
    syncModelToFirestoreStep c4MongoOrigin []
      ⟨MongoOp.update, "aaaaaaaaaaaaaaaaaaaaaaaa", none⟩
      = alSet [] "aaaaaaaaaaaaaaaaaaaaaaaa"
          (withTag (cleanDocument (some
            [("_id", Value.vOid "aaaaaaaaaaaaaaaaaaaaaaaa"), ("x", Value.vNum 5)])) "mongo") ∧
    syncFirestoreToMongoStep c4MongoDest c4ModifiedEvent "b"
      = alSet c4MongoDest "aaaaaaaaaaaaaaaaaaaaaaaa"
          (mergeFields [("_id", Value.vOid "aaaaaaaaaaaaaaaaaaaaaaaa"), ("x", Value.vNum 0)]
            (withTag (cleanFirestoreDoc [("x", Value.vNum 1)]) "firestore")) := by
  constructor
  · have h := c4_amended_update_paths.1 c4MongoOrigin []
      ⟨MongoOp.update, "aaaaaaaaaaaaaaaaaaaaaaaa", none⟩
      [("_id", Value.vOid "aaaaaaaaaaaaaaaaaaaaaaaa"), ("x", Value.vNum 5)]
      (Or.inl rfl) rfl rfl
    rwa [if_neg (by simp [tagIs, alGet])] at h
  · exact c4_amended_update_paths.2.2.2.1 c4MongoDest c4ModifiedEvent "b"
      [("_id", Value.vOid "aaaaaaaaaaaaaaaaaaaaaaaa"), ("x", Value.vNum 0)]
      rfl rfl (by decide) rfl

/-! ## Claim C1: Mongo → Firestore backfill lemmas -/

theorem initialSyncStep_preserves (F : Store) (d : Doc) (k : String) (v : Doc)
    (h : alGet F k = some v) : alGet (initialSyncStep F d) k = some v := by
  unfold initialSyncStep
  rcases he : alGet F (mongoScanKey d) with _ | w
  · have hk : mongoScanKey d ≠ k := fun hek => by rw [hek, h] at he; cases he
    rw [alGet_alSet_ne _ _ _ _ hk]
    exact h
  · exact h

theorem initialRun_preserves (docs : List Doc) (F : Store) (k : String) (v : Doc)
    (h : alGet F k = some v) : alGet (initialMongoToFirestore docs F) k = some v := by
  induction docs generalizing F with
  | nil => exact h
  | cons d tl ih => exact ih _ (initialSyncStep_preserves F d k v h)

theorem initialSyncStep_mem (F : Store) (d : Doc) :
    ∃ v, alGet (initialSyncStep F d) (mongoScanKey d) = some v := by
  unfold initialSyncStep
  rcases he : alGet F (mongoScanKey d) with _ | w
  · exact ⟨_, alGet_alSet_self _ _ _⟩
  · exact ⟨w, he⟩

theorem initialRun_mem (docs : List Doc) (F : Store) (d : Doc) (hd : d ∈ docs) :
    ∃ v, alGet (initialMongoToFirestore docs F) (mongoScanKey d) = some v := by
  induction docs generalizing F with
  | nil => cases hd
  | cons q tl ih =>
    rcases List.mem_cons.1 hd with rfl | hd2
    · obtain ⟨v, hv⟩ := initialSyncStep_mem F d
      exact ⟨_, initialRun_preserves tl _ _ _ hv⟩
    · exact ih _ hd2

theorem initialSyncStep_noop (F : Store) (d : Doc)
    (h : ∃ v, alGet F (mongoScanKey d) = some v) : initialSyncStep F d = F := by
  obtain ⟨v, hv⟩ := h
  unfold initialSyncStep
  rw [hv]

theorem initialRun_noop (docs : List Doc) (F : Store)
    (h : ∀ d ∈ docs, ∃ v, alGet F (mongoScanKey d) = some v) :
    initialMongoToFirestore docs F = F := by
  induction docs with
  | nil => rfl
  | cons q tl ih =>
    have hq := initialSyncStep_noop F q (h q (by simp))
    show initialMongoToFirestore tl (initialSyncStep F q) = F
    rw [hq]
    exact ih fun d hd => h d (by simp [hd])

/-! ## Claim C1: Firestore → Mongo backfill lemmas -/

/-- The `$set` payload `{ ...data, _syncedFrom: "firestore" }` a
snapshot document produces. -/
def fsSetFields (data : Doc) : Doc :=
  withTag (cleanFirestoreDoc data) "firestore"

/-- The Mongo record created for a snapshot document with a
grammar-valid key and no literal `_id` payload field. -/
def fsCreatedRecord (docId : String) (data : Doc) : Doc :=
  alSet (withTag (spreadInto [("_id", Value.vStr docId)] (cleanFirestoreDoc data)) "firestore")
    "_id" (Value.vOid docId)

/-- A well-behaved snapshot document: either tagged `"mongo"` (and thus
skipped), or its key matches the primary grammar while its cleaned
payload is a well-formed JS object (distinct keys) without a literal
`_id` field. -/
def goodBackfillDoc (d : String × Doc) : Prop :=
  tagIs d.2 "mongo" = true ∨
    (isValidObjectId d.1 = true ∧ alGet (cleanFirestoreDoc d.2) "_id" = none ∧
      (alKeys (cleanFirestoreDoc d.2)).Nodup)

theorem initialFsStep_tagged (M : Store) (p : (String × Doc) × String)
    (h : tagIs p.1.2 "mongo" = true) : initialFsStep M p = M := by
  simp [initialFsStep, h]

theorem fsSetFields_nodup (data : Doc) (h : (alKeys (cleanFirestoreDoc data)).Nodup) :
    (alKeys (fsSetFields data)).Nodup :=
  alKeys_alSet_nodup _ _ _ h

theorem fsCreatedRecord_id (docId : String) (data : Doc)
    (h : alGet (cleanFirestoreDoc data) "_id" = none) :
    alGet (withTag (spreadInto [("_id", Value.vStr docId)] (cleanFirestoreDoc data)) "firestore")
      "_id" = some (Value.vStr docId) := by
  rw [withTag, alGet_alSet_ne _ _ _ _ (by decide),
    alGet_spreadInto_of_none _ _ _ h]
  rfl

theorem initialFsStep_create (M : Store) (p : (String × Doc) × String)
    (htag : tagIs p.1.2 "mongo" = false)
    (hv : isValidObjectId p.1.1 = true)
    (hid : alGet (cleanFirestoreDoc p.1.2) "_id" = none)
    (habs : alGet M p.1.1 = none) :
    initialFsStep M p = alSet M p.1.1 (fsCreatedRecord p.1.1 p.1.2) := by
  have hfid := fsCreatedRecord_id p.1.1 p.1.2 hid
  simp [initialFsStep, htag, hv, habs, mongoCreate, hfid, fsCreatedRecord]

theorem initialFsStep_update (M : Store) (p : (String × Doc) × String) (r : Doc)
    (htag : tagIs p.1.2 "mongo" = false)
    (hex : alGet M p.1.1 = some r) :
    initialFsStep M p = alSet M p.1.1 (mergeFields r (fsSetFields p.1.2)) := by
  simp [initialFsStep, htag, hex, mongoUpdate, fsSetFields]

theorem initialFsStep_frame (M : Store) (p : (String × Doc) × String) (k : String)
    (hg : goodBackfillDoc p.1) (hk : k ≠ p.1.1) :
    alGet (initialFsStep M p) k = alGet M k := by
  rcases hg with h | ⟨hv, hid, _⟩
  · rw [initialFsStep_tagged M p h]
  · by_cases htag : tagIs p.1.2 "mongo"
    · rw [initialFsStep_tagged M p htag]
    · rcases he : alGet M p.1.1 with _ | r
      · rw [initialFsStep_create M p (by simp [htag]) hv hid he,
          alGet_alSet_ne _ _ _ _ (Ne.symm hk)]
      · rw [initialFsStep_update M p r (by simp [htag]) he,
          alGet_alSet_ne _ _ _ _ (Ne.symm hk)]

/-- The created record absorbs a re-merge of the same `$set` payload. -/
theorem fsCreatedRecord_absorb (docId : String) (data : Doc)
    (hid : alGet (cleanFirestoreDoc data) "_id" = none)
    (hnd : (alKeys (cleanFirestoreDoc data)).Nodup) :
    mergeFields (fsCreatedRecord docId data) (fsSetFields data) = fsCreatedRecord docId data := by
  refine mergeFields_absorb _ _ (fsSetFields_nodup data hnd) ?_
  intro k v hk
  by_cases hks : k = "_syncedFrom"
  · subst hks
    rw [fsSetFields, withTag, alGet_alSet_self] at hk
    rw [fsCreatedRecord, alGet_alSet_ne _ _ _ _ (by decide), withTag, alGet_alSet_self]
    exact hk.symm ▸ rfl
  · rw [fsSetFields, withTag, alGet_alSet_ne _ _ _ _ (fun he => hks he.symm)] at hk
    have hkid : k ≠ "_id" := fun he => by rw [he, hid] at hk; cases hk
    rw [fsCreatedRecord, alGet_alSet_ne _ _ _ _ (fun he => hkid he.symm), withTag,
      alGet_alSet_ne _ _ _ _ (fun he => hks he.symm),
      alGet_spreadInto_of_some _ _ _ _ hnd hk]

theorem initialFsStep_establishes (M : Store) (p : (String × Doc) × String)
    (htag : tagIs p.1.2 "mongo" = false)
    (hv : isValidObjectId p.1.1 = true)
    (hid : alGet (cleanFirestoreDoc p.1.2) "_id" = none)
    (hnd : (alKeys (cleanFirestoreDoc p.1.2)).Nodup) :
    ∃ R, alGet (initialFsStep M p) p.1.1 = some R ∧
      mergeFields R (fsSetFields p.1.2) = R := by
  rcases he : alGet M p.1.1 with _ | r
  · refine ⟨fsCreatedRecord p.1.1 p.1.2, ?_, fsCreatedRecord_absorb _ _ hid hnd⟩
    rw [initialFsStep_create M p htag hv hid he, alGet_alSet_self]
  · refine ⟨mergeFields r (fsSetFields p.1.2), ?_, mergeFields_idem _ _ (fsSetFields_nodup _ hnd)⟩
    rw [initialFsStep_update M p r htag he, alGet_alSet_self]

theorem initialFsStep_fixpoint (M : Store) (p : (String × Doc) × String) (R : Doc)
    (hex : alGet M p.1.1 = some R)
    (hfix : mergeFields R (fsSetFields p.1.2) = R) :
    initialFsStep M p = M := by
  by_cases htag : tagIs p.1.2 "mongo"
  · exact initialFsStep_tagged M p htag
  · rw [initialFsStep_update M p R (by simp [htag]) hex, hfix]
    exact alSet_self _ _ _ hex

theorem initialFsRun_frame (items : List ((String × Doc) × String)) (M : Store) (k : String)
    (hg : ∀ p ∈ items, goodBackfillDoc p.1)
    (hk : ∀ p ∈ items, k ≠ p.1.1) :
    alGet (initialFirestoreToMongo items M) k = alGet M k := by
  induction items generalizing M with
  | nil => rfl
  | cons q tl ih =>
    show alGet (initialFirestoreToMongo tl (initialFsStep M q)) k = alGet M k
    rw [ih _ (fun p hp => hg p (by simp [hp])) (fun p hp => hk p (by simp [hp])),
      initialFsStep_frame M q k (hg q (by simp)) (hk q (by simp))]

theorem initialFsRun_establishes (items : List ((String × Doc) × String)) (M : Store)
    (hg : ∀ p ∈ items, goodBackfillDoc p.1)
    (hnd : (items.map fun q => q.1.1).Nodup) :
    ∀ p ∈ items, tagIs p.1.2 "mongo" = true ∨
      ∃ R, alGet (initialFirestoreToMongo items M) p.1.1 = some R ∧
        mergeFields R (fsSetFields p.1.2) = R := by
  induction items generalizing M with
  | nil => intro p hp; cases hp
  | cons q tl ih =>
    rw [List.map_cons, List.nodup_cons] at hnd
    intro p hp
    rcases List.mem_cons.1 hp with rfl | hp2
    · by_cases htag : tagIs p.1.2 "mongo"
      · exact Or.inl htag
      · rcases hg p (by simp) with h | ⟨hv, hid, hnd2⟩
        · exact Or.inl h
        · obtain ⟨R, hR, hfix⟩ :=
            initialFsStep_establishes M p (by simp [htag]) hv hid hnd2
          refine Or.inr ⟨R, ?_, hfix⟩
          show alGet (initialFirestoreToMongo tl (initialFsStep M p)) p.1.1 = some R
          rw [initialFsRun_frame tl _ _ (fun x hx => hg x (by simp [hx]))
            (fun x hx he => hnd.1 (by rw [he]; exact List.mem_map_of_mem _ hx))]
          exact hR
    · exact ih _ (fun x hx => hg x (by simp [hx])) hnd.2 p hp2

theorem initialFsRun_noop (items : List ((String × Doc) × String)) (M : Store)
    (h : ∀ p ∈ items, tagIs p.1.2 "mongo" = true ∨
      ∃ R, alGet M p.1.1 = some R ∧ mergeFields R (fsSetFields p.1.2) = R) :
    initialFirestoreToMongo items M = M := by
  induction items with
  | nil => rfl
  | cons q tl ih =>
    have hq : initialFsStep M q = M := by
      rcases h q (by simp) with ht | ⟨R, hR, hfix⟩
      · exact initialFsStep_tagged M q ht
      · exact initialFsStep_fixpoint M q R hR hfix
    show initialFirestoreToMongo tl (initialFsStep M q) = M
    rw [hq]
    exact ih fun p hp => h p (by simp [hp])

/-- The destination Mongo state before the C1 counterexample backfill:
the mapped key already exists with `x = 9`. -/
def c1DestinationBefore : Store :=
  [("aaaaaaaaaaaaaaaaaaaaaaaa",
    [("_id", Value.vOid "aaaaaaaaaaaaaaaaaaaaaaaa"), ("x", Value.vNum 9)])]

/-- A Firestore snapshot whose only document (untagged, `x = 1`) maps to
the already-existing destination key. -/
def c1SnapshotOverwrite : List ((String × Doc) × String) :=
  [(("aaaaaaaaaaaaaaaaaaaaaaaa", [("x", Value.vNum 1)]), "111111111111111111111111")]

/-- A snapshot holding one document with a non-grammar key, paired with
the id the store mints on the first run. -/
def c1SnapshotInvalidKeyRun1 : List ((String × Doc) × String) :=
  [(("teacher-fall-2024", [("y", Value.vNum 2)]), "111111111111111111111111")]

/-- The same snapshot on the second run: same documents, a different
minted id. -/
def c1SnapshotInvalidKeyRun2 : List ((String × Doc) × String) :=
  [(("teacher-fall-2024", [("y", Value.vNum 2)]), "222222222222222222222222")]

/-- C1 counterexample. First half: the Firestore→Mongo backfill
OVERWRITES an existing destination record (`x` goes from 9 to 1), where
the claim requires it untouched. Second half: running that backfill
twice on an unchanged origin holding one non-grammar-keyed document
yields a different destination state than running it once (each run
creates a fresh record under a newly minted key). -/
theorem c1_counterexample :
    alGet c1DestinationBefore "aaaaaaaaaaaaaaaaaaaaaaaa"
      = some [("_id", Value.vOid "aaaaaaaaaaaaaaaaaaaaaaaa"), ("x", Value.vNum 9)] ∧
    initialFirestoreToMongo c1SnapshotOverwrite c1DestinationBefore ≠ c1DestinationBefore ∧
    c1SnapshotInvalidKeyRun2.map Prod.fst = c1SnapshotInvalidKeyRun1.map Prod.fst ∧
    initialFirestoreToMongo c1SnapshotInvalidKeyRun2
        (initialFirestoreToMongo c1SnapshotInvalidKeyRun1 [])
      ≠ initialFirestoreToMongo c1SnapshotInvalidKeyRun1 [] :=
  ⟨rfl,
   fun h =>
     absurd (congrArg (fun S => probeNum S "aaaaaaaaaaaaaaaaaaaaaaaa" "x") h) (by decide),
   rfl,
   fun h => absurd (congrArg List.length h) (by decide)⟩

/-- C1 amended: the Mongo→Firestore backfill is create-if-absent — it
never changes an existing destination record and re-running it on an
unchanged origin is a no-op. The Firestore→Mongo backfill, however,
`$set`-updates existing destination records for every snapshot document
not tagged `"mongo"`; re-running it on an unchanged origin reproduces
the same destination state provided every snapshot document is either
tagged `"mongo"` or has a grammar-valid key (with a well-formed payload
carrying no literal `_id` field) and the snapshot keys are distinct —
documents with non-grammar keys are instead re-created under a fresh
minted key on every run. -/
theorem c1_amended_backfill :
    (∀ (docs : List Doc) (F : Store),
       initialMongoToFirestore docs (initialMongoToFirestore docs F)
         = initialMongoToFirestore docs F) ∧
    (∀ (docs : List Doc) (F : Store) (k : String) (v : Doc),
       alGet F k = some v → alGet (initialMongoToFirestore docs F) k = some v) ∧
    (∀ (M : Store) (p : (String × Doc) × String) (r : Doc),
       tagIs p.1.2 "mongo" = false → alGet M p.1.1 = some r →
       initialFsStep M p = alSet M p.1.1 (mergeFields r (fsSetFields p.1.2))) ∧
    (∀ (items1 items2 : List ((String × Doc) × String)) (M : Store),
       items1.map Prod.fst = items2.map Prod.fst →
       (∀ q ∈ items1, goodBackfillDoc q.1) →
       (items1.map fun q => q.1.1).Nodup →
       initialFirestoreToMongo items2 (initialFirestoreToMongo items1 M)
         = initialFirestoreToMongo items1 M) := by
  refine ⟨?_, ?_, ?_, ?_⟩
  · intro docs F
    exact initialRun_noop docs _ fun d hd => initialRun_mem docs F d hd
  · intro docs F k v h
    exact initialRun_preserves docs F k v h
  · intro M p r htag hex
    exact initialFsStep_update M p r htag hex
  · intro items1 items2 M hmap hg hnd
    refine initialFsRun_noop items2 _ ?_
    intro q hq
    have hq1 : q.1 ∈ items1.map Prod.fst := by
      rw [hmap]
      exact List.mem_map_of_mem _ hq
    obtain ⟨p, hp, hpe⟩ := List.mem_map.1 hq1
    rcases initialFsRun_establishes items1 M hg hnd p hp with ht | ⟨R, hR, hfix⟩
    · left
      rw [show q.1.2 = p.1.2 from by rw [hpe]]
      exact ht
    · right
      refine ⟨R, ?_, ?_⟩
      · rw [show q.1.1 = p.1.1 from by rw [hpe]]
        exact hR
      · rw [show q.1.2 = p.1.2 from by rw [hpe]]
        exact hfix

/-- Witness for the amended C1: re-running the Firestore→Mongo backfill
over a grammar-valid snapshot reproduces the state, and the
Mongo→Firestore backfill preserves an existing destination record. -/
theorem c1_amended_backfill_witness :
    alGet [("f", [("v", Value.vNum 3)])] "f" = some [("v", Value.vNum 3)] ∧
    alGet (initialMongoToFirestore [sampleMongoRecord] [("f", [("v", Value.vNum 3)])]) "f"
      = some [("v", Value.vNum 3)] ∧
    initialFirestoreToMongo c1SnapshotOverwrite
        (initialFirestoreToMongo c1SnapshotOverwrite c1DestinationBefore)
      = initialFirestoreToMongo c1SnapshotOverwrite c1DestinationBefore :=
  ⟨rfl,
   c1_amended_backfill.2.1 [sampleMongoRecord] [("f", [("v", Value.vNum 3)])] "f"
     [("v", Value.vNum 3)] rfl,
   c1_amended_backfill.2.2.2 c1SnapshotOverwrite c1SnapshotOverwrite c1DestinationBefore rfl
     (by
       intro q hq
       simp [c1SnapshotOverwrite] at hq
       subst hq
       exact Or.inr ⟨by decide, rfl, by decide⟩)
     (by decide)⟩

end Testbank
